import Mathlib

/-!
Shallow embedding of `src/fix_sqlx_pools.py`.

The script applies six `re.sub` substitutions to a file's content, in order:

1. `\.execute\(pool\)`        -> `.execute(&*pool)`
2. `\.fetch_one\(pool\)`      -> `.fetch_one(&*pool)`
3. `\.fetch_all\(pool\)`      -> `.fetch_all(&*pool)`
4. `\.fetch_optional\(pool\)` -> `.fetch_optional(&*pool)`
5. `([a-zA-Z_][a-zA-Z0-9_]*::)?([a-zA-Z_][a-zA-Z0-9_]*)\(pool,` -> `\1\2(&*pool,`
6. `([a-zA-Z_][a-zA-Z0-9_]*::)?([a-zA-Z_][a-zA-Z0-9_]*)\(pool\)` -> `\1\2(&*pool)`

then writes the file back (plain truncating `open(path, "w")` followed by
`f.write`) only when the content changed, returning `True` in that case.  Any
exception inside the per-file `try` block is caught, an error message is
printed, and `False` is returned.  `main` aborts (printing a message) when the
root directory is missing, and otherwise runs `fix_pool_patterns` on each file.

Content is modelled as `List Char`.  Rules 1-4 are literal substitutions;
rules 5 and 6 are modelled by `matchAt`, a faithful rendering of the Python
regex engine's behaviour on these two patterns: leftmost match wins, the
optional group is tried first, and the greedy character-class stars need no
further backtracking because the character following each star (`:` or `(`)
is outside the star's character class.  `re.sub` scans left to right and
resumes after each non-overlapping match, which is what `subLitF` / `subCallF`
implement; unmatched optional groups substitute as the empty string in the
template (Python >= 3.5), so the template `\1\2(...` rewrites the matched
prefix to itself.
-/

namespace FixSqlx

/-- Characters matched by the regex class `[a-zA-Z_]` (start of an identifier). -/
def isIdentStart (c : Char) : Bool := c.isAlpha || c = '_'

/-- Characters matched by the regex class `[a-zA-Z0-9_]`. -/
def isIdentChar (c : Char) : Bool := c.isAlphanum || c = '_'

/-- Literal `re.sub` with pattern `pat` and replacement `repl`: scan left to
right, replace each non-overlapping occurrence, resume after it.  Fuel-indexed
so the definition is structural; `subLit` instantiates the fuel with the input
length, which is sufficient because every step consumes at least one input
character (all patterns used are nonempty). -/
def subLitF (pat repl : List Char) : Nat → List Char → List Char
  | 0, s => s
  | _ + 1, [] => []
  | fuel + 1, c :: cs =>
    if pat.isPrefixOf (c :: cs) then
      repl ++ subLitF pat repl fuel ((c :: cs).drop pat.length)
    else
      c :: subLitF pat repl fuel cs

/-- Literal `re.sub pat repl` on a whole content string. -/
def subLit (pat repl s : List Char) : List Char := subLitF pat repl s.length s

/-- Number of non-overlapping matches that the literal `re.sub` replaces. -/
def countLitF (pat : List Char) : Nat → List Char → Nat
  | 0, _ => 0
  | _ + 1, [] => 0
  | fuel + 1, c :: cs =>
    if pat.isPrefixOf (c :: cs) then
      1 + countLitF pat fuel ((c :: cs).drop pat.length)
    else
      countLitF pat fuel cs

/-- Number of non-overlapping matches of a literal pattern in `s`. -/
def countLit (pat s : List Char) : Nat := countLitF pat s.length s

/-- The literal tail of patterns 5 and 6: `(pool` followed by the closing
character (`,` for rule 5, `)` for rule 6). -/
def callLit (close : Char) : List Char := '(' :: 'p' :: 'o' :: 'o' :: 'l' :: [close]

/-- Replacement text `(&*pool` followed by the closing character. -/
def callRepl (close : Char) : List Char :=
  '(' :: '&' :: '*' :: 'p' :: 'o' :: 'o' :: 'l' :: [close]

/-- Attempt to match `([a-zA-Z_][a-zA-Z0-9_]*)\(pool<close>` at the head of
`s` (the second capture group followed by the literal tail `lit`).  The greedy
star is exact maximal munch: the character after it must be `(`, which is not
in the star's class, so no shorter munch can succeed.  Returns the text
matched before `lit` together with the remaining input. -/
def g2At (lit : List Char) (s : List Char) : Option (List Char × List Char) :=
  match s with
  | [] => none
  | c :: cs =>
    if isIdentStart c then
      if lit.isPrefixOf (cs.dropWhile isIdentChar) then
        some (c :: cs.takeWhile isIdentChar, (cs.dropWhile isIdentChar).drop lit.length)
      else none
    else none

/-- Attempt to match the full pattern
`([a-zA-Z_][a-zA-Z0-9_]*::)?([a-zA-Z_][a-zA-Z0-9_]*)\(pool<close>` at the head
of `s`, as the Python regex engine does: the optional group is tried first
(its greedy star is exact maximal munch because `:` is outside the class), and
on failure the engine backtracks to the group-absent alternative.  Returns the
text standing for `\1\2` together with the remaining input. -/
def matchAt (lit : List Char) (s : List Char) : Option (List Char × List Char) :=
  match s with
  | [] => none
  | c :: cs =>
    if isIdentStart c then
      match cs.dropWhile isIdentChar with
      | d1 :: d2 :: rest2 =>
        if d1 = ':' ∧ d2 = ':' then
          match g2At lit rest2 with
          | some pr => some ((c :: cs.takeWhile isIdentChar) ++ ':' :: ':' :: pr.1, pr.2)
          | none => g2At lit (c :: cs)
        else g2At lit (c :: cs)
      | _ => g2At lit (c :: cs)
    else none

/-- `re.sub` for patterns 5 and 6: scan left to right, try `matchAt` at every
position, replace `\1\2(pool<close>` by `\1\2(&*pool<close>`, resume after the
match.  Fuel-indexed (every step consumes at least one character). -/
def subCallF (close : Char) : Nat → List Char → List Char
  | 0, s => s
  | _ + 1, [] => []
  | fuel + 1, c :: cs =>
    match matchAt (callLit close) (c :: cs) with
    | some (p, r) => p ++ callRepl close ++ subCallF close fuel r
    | none => c :: subCallF close fuel cs

/-- Rule 5 (`close = ','`) resp. rule 6 (`close = ')'`) on a whole content. -/
def subCall (close : Char) (s : List Char) : List Char := subCallF close s.length s

/-- Pattern of rule 1 (line 21 of the source). -/
def patExecute : List Char := ".execute(pool)".data

/-- Replacement of rule 1. -/
def replExecute : List Char := ".execute(&*pool)".data

/-- Pattern of rule 2 (line 22 of the source). -/
def patFetchOne : List Char := ".fetch_one(pool)".data

/-- Replacement of rule 2. -/
def replFetchOne : List Char := ".fetch_one(&*pool)".data

/-- Pattern of rule 3 (line 23 of the source). -/
def patFetchAll : List Char := ".fetch_all(pool)".data

/-- Replacement of rule 3. -/
def replFetchAll : List Char := ".fetch_all(&*pool)".data

/-- Pattern of rule 4 (line 24 of the source). -/
def patFetchOptional : List Char := ".fetch_optional(pool)".data

/-- Replacement of rule 4. -/
def replFetchOptional : List Char := ".fetch_optional(&*pool)".data

/-- The full substitution chain of `fix_pool_patterns` (source lines 21-28):
each rule operates on the output of all earlier rules. -/
def applySubs (content : List Char) : List Char :=
  subCall ')'
    (subCall ','
      (subLit patFetchOptional replFetchOptional
        (subLit patFetchAll replFetchAll
          (subLit patFetchOne replFetchOne
            (subLit patExecute replExecute content)))))

/-- Only the two generic function-call substitutions (source lines 27-28),
in their listed order. -/
def applyGenericSubs (content : List Char) : List Char :=
  subCall ')' (subCall ',' content)

/-- A rule of the chain: a literal substitution or one of the two generic
call-site substitutions. -/
inductive RuleSpec
  | lit (pat repl : List Char)
  | call (close : Char)

/-- Apply a single rule to a content string. -/
def ruleApply (r : RuleSpec) (s : List Char) : List Char :=
  match r with
  | RuleSpec.lit pat repl => subLit pat repl s
  | RuleSpec.call close => subCall close s

/-- The six rules of the script, in the order of source lines 21-28. -/
def ruleList : List RuleSpec :=
  [RuleSpec.lit patExecute replExecute,
   RuleSpec.lit patFetchOne replFetchOne,
   RuleSpec.lit patFetchAll replFetchAll,
   RuleSpec.lit patFetchOptional replFetchOptional,
   RuleSpec.call ',',
   RuleSpec.call ')']

/-- Number of (possibly overlapping) occurrences of `pat` in a string: one per
starting position at which `pat` is a prefix of the remaining input. -/
def countOcc (pat : List Char) : List Char → Nat
  | [] => 0
  | c :: cs => (if pat.isPrefixOf (c :: cs) then 1 else 0) + countOcc pat cs

/-! ## File and run model

`fix_pool_patterns` does I/O around the substitution chain.  Reading may
raise (modelled by the `readable` flag); writing uses `open(path, "w")`,
which truncates the file before `f.write(content)` runs, so a write failure
after `k` characters leaves `newContent.take k` on disk.  Both failures are
swallowed by the enclosing `try`/`except`, which prints an error message and
returns `False`. -/

/-- Messages the script prints. -/
inductive Msg
  | fixedFile
  | errorProcessing
  | dirNotFound
  | foundFiles (n : Nat)
  | fixedTotal (n : Nat)
deriving DecidableEq

/-- Behaviour of the `f.write(content)` call: it either completes or raises
after `k` characters have reached the (already truncated) file. -/
inductive WriteBehavior
  | succeeds
  | failsAfter (k : Nat)
deriving DecidableEq

/-- Observable outcome of one `fix_pool_patterns` call: the returned boolean,
the messages printed, the file's final on-disk bytes, and the list of write
operations performed (contents that reached the disk). -/
structure FileOutcome where
  retVal : Bool
  printed : List Msg
  disk : List Char
  writes : List (List Char)
deriving DecidableEq

/-- Model of `fix_pool_patterns` (source lines 11-38) on a file whose current
bytes are `content`.  When `readable` is false the initial `open`/`read`
raises and the `except` branch prints and returns `False` without touching the
file.  Otherwise the substitution chain runs; if it changed the content the
file is reopened with mode `w` (truncation) and written, `Fixed` is printed
and `True` returned; a write failure is caught by the same `except` branch,
leaving the partial bytes on disk. -/
def fix_pool_patterns (content : List Char) (readable : Bool) (wb : WriteBehavior) :
    FileOutcome :=
  if readable = false then
    { retVal := false, printed := [Msg.errorProcessing], disk := content, writes := [] }
  else
    let newContent := applySubs content
    if newContent = content then
      { retVal := false, printed := [], disk := content, writes := [] }
    else
      match wb with
      | WriteBehavior.succeeds =>
        { retVal := true, printed := [Msg.fixedFile], disk := newContent,
          writes := [newContent] }
      | WriteBehavior.failsAfter k =>
        { retVal := false, printed := [Msg.errorProcessing], disk := newContent.take k,
          writes := [newContent.take k] }

/-- One scanned file: current bytes, readability, write behaviour. -/
abbrev FileInput := List Char × Bool × WriteBehavior

/-- The per-file loop of `main` (source lines 52-54): every file is processed,
whatever happened to the previous ones. -/
def runFiles : List FileInput → List FileOutcome
  | [] => []
  | f :: fs => fix_pool_patterns f.1 f.2.1 f.2.2 :: runFiles fs

/-- The `fixed_count` accumulator of `main`. -/
def countFixed : List FileOutcome → Nat
  | [] => 0
  | o :: os => (if o.retVal then 1 else 0) + countFixed os

/-- Messages printed by the processed files, in order. -/
def collectPrints : List FileOutcome → List Msg
  | [] => []
  | o :: os => o.printed ++ collectPrints os

/-- Outcome of a whole run: messages printed, per-file outcomes (empty when no
file was processed), and the final on-disk bytes of every file. -/
structure RunOutcome where
  printed : List Msg
  results : List FileOutcome
  disks : List (List Char)
deriving DecidableEq

/-- Model of `main` (source lines 40-56).  When the root directory does not
exist it prints `Source directory not found` and returns before any file is
read or written; otherwise it prints the file count, processes every file, and
prints the fixed count. -/
def main (rootExists : Bool) (files : List FileInput) : RunOutcome :=
  if rootExists = false then
    { printed := [Msg.dirNotFound], results := [], disks := files.map (·.1) }
  else
    let outs := runFiles files
    { printed := Msg.foundFiles files.length ::
        (collectPrints outs ++ [Msg.fixedTotal (countFixed outs)]),
      results := outs,
      disks := outs.map (·.disk) }

/-! ## Verification machinery

A single left-to-right state machine equivalent to the regex scanners.  The
Boolean state records whether the maximal run of `[a-zA-Z0-9_]` characters
ending just before the current position contains a `[a-zA-Z_]` character
(i.e. whether some suffix of that run is a valid capture-group-2 match). -/

/-- State transition of the run-tracking machine. -/
def runStep (b : Bool) (c : Char) : Bool := isIdentChar c && (b || isIdentStart c)

/-- Does `s` begin with `(pool` followed by one of the closing characters in
`ds`?  Returns that closing character if so. -/
def siteClose (ds : List Char) (s : List Char) : Option Char :=
  match s with
  | c1 :: c2 :: c3 :: c4 :: c5 :: d :: _ =>
    if c1 = '(' ∧ c2 = 'p' ∧ c3 = 'o' ∧ c4 = 'o' ∧ c5 = 'l' ∧ d ∈ ds then some d else none
  | _ => none

/-- The insertion machine: walk the content left to right; at a position that
starts `(pool<d>` with `d ∈ ds` and whose preceding identifier run contains an
identifier-start character (state `b`), insert `&*` after the `(` and continue
after the site with a reset state. -/
def insMF (ds : List Char) : Nat → Bool → List Char → List Char
  | 0, _, s => s
  | _ + 1, _, [] => []
  | fuel + 1, b, c :: cs =>
    match (if b then siteClose ds (c :: cs) else none) with
    | some d =>
      '(' :: '&' :: '*' :: 'p' :: 'o' :: 'o' :: 'l' :: d ::
        insMF ds fuel false ((c :: cs).drop 6)
    | none => c :: insMF ds fuel (runStep b c) cs

/-- The insertion machine on a whole content. -/
def insM (ds : List Char) (b : Bool) (s : List Char) : List Char := insMF ds s.length b s

/-- Closing characters of the two generic rules. -/
def bothClosers : List Char := [')', ',']

/-- Common shape of the four literal patterns: a dot, an identifier, then
`(pool)`.  For instance rule 1's pattern is `litPat 'e' "xecute".data`. -/
def litPat (c0 : Char) (w1 : List Char) : List Char :=
  '.' :: c0 :: (w1 ++ '(' :: 'p' :: 'o' :: 'o' :: 'l' :: [')'])

/-- Common shape of the four literal replacements: the same prefix with `&*`
inserted after the parenthesis. -/
def litRepl (c0 : Char) (w1 : List Char) : List Char :=
  '.' :: c0 :: (w1 ++ '(' :: '&' :: '*' :: 'p' :: 'o' :: 'o' :: 'l' :: [')'])

/-- Invariant carried while proving `subCall` equal to the insertion machine:
when the state `b` is `true`, the machine could fire at a site whose
identifier run started before the current suffix `s`; the invariant says `s`
does not in fact begin with the remainder of such a site (an all-identifier
run followed by the literal site text). -/
def InvM (close : Char) (b : Bool) (s : List Char) : Prop :=
  b = true → ∀ run rest, s = run ++ callLit close ++ rest →
    run.all isIdentChar = true → False

/-! ## Basic lemmas about the character classes and the run state -/

theorem isIdentChar_of_start {c : Char} (h : isIdentStart c = true) :
    isIdentChar c = true := by
  simp only [isIdentStart, Bool.or_eq_true, decide_eq_true_eq] at h
  rcases h with h | h
  · simp [isIdentChar, Char.isAlphanum, h]
  · simp [isIdentChar, h]

theorem runStep_of_start {c : Char} (b : Bool) (h : isIdentStart c = true) :
    runStep b c = true := by
  simp [runStep, isIdentChar_of_start h, h]

theorem runStep_of_not_ident {c : Char} (b : Bool) (h : isIdentChar c = false) :
    runStep b c = false := by
  simp [runStep, h]

theorem foldl_runStep_ident : ∀ {u : List Char}, u.all isIdentChar = true →
    List.foldl runStep true u = true := by
  intro u
  induction u with
  | nil => intro _; rfl
  | cons x xs ih =>
    intro h
    simp only [List.all_cons, Bool.and_eq_true] at h
    have hx : runStep true x = true := by simp [runStep, h.1]
    simpa [List.foldl_cons, hx] using ih h.2

theorem takeWhile_all : ∀ (l : List Char), (l.takeWhile isIdentChar).all isIdentChar = true := by
  intro l
  induction l with
  | nil => rfl
  | cons x xs ih =>
    by_cases hx : isIdentChar x
    · simp [List.takeWhile_cons, hx, ih]
    · simp [List.takeWhile_cons, hx]

theorem run_split {u : List Char} (hu : u.all isIdentChar = true) {c : Char}
    (hc : isIdentChar c = false) (v : List Char) :
    (u ++ c :: v).takeWhile isIdentChar = u ∧
      (u ++ c :: v).dropWhile isIdentChar = c :: v := by
  induction u with
  | nil => simp [List.takeWhile_cons, List.dropWhile_cons, hc]
  | cons x xs ih =>
    simp only [List.all_cons, Bool.and_eq_true] at hu
    obtain ⟨ht, hd⟩ := ih hu.2
    constructor
    · simp [List.takeWhile_cons, hu.1, ht]
    · simp [List.dropWhile_cons, hu.1, hd]

/-! ## Soundness and completeness of the regex matcher -/

theorem g2At_sound {lit s p r : List Char} (h : g2At lit s = some (p, r)) :
    s = p ++ lit ++ r ∧ p ≠ [] ∧ p.all isIdentChar = true ∧
      ∀ b, List.foldl runStep b p = true := by
  cases s with
  | nil => simp [g2At] at h
  | cons c cs =>
    simp only [g2At] at h
    by_cases h1 : isIdentStart c
    · rw [if_pos h1] at h
      by_cases h2 : lit.isPrefixOf (cs.dropWhile isIdentChar)
      · rw [if_pos h2] at h
        obtain ⟨hp, hr⟩ := Prod.mk.injEq .. ▸ Option.some.injEq .. ▸ h
        have hpre : lit <+: cs.dropWhile isIdentChar :=
          List.isPrefixOf_iff_prefix.mp h2
        have hdw : lit ++ (cs.dropWhile isIdentChar).drop lit.length
            = cs.dropWhile isIdentChar := List.prefix_iff_eq_append.mp hpre
        refine ⟨?_, ?_, ?_, ?_⟩
        · rw [← hp, ← hr]
          have : cs = cs.takeWhile isIdentChar ++ cs.dropWhile isIdentChar :=
            (List.takeWhile_append_dropWhile isIdentChar cs).symm
          calc c :: cs = c :: (cs.takeWhile isIdentChar ++ cs.dropWhile isIdentChar) := by
                rw [← this]
            _ = c :: (cs.takeWhile isIdentChar ++
                (lit ++ (cs.dropWhile isIdentChar).drop lit.length)) := by rw [hdw]
            _ = (c :: cs.takeWhile isIdentChar) ++ lit ++
                (cs.dropWhile isIdentChar).drop lit.length := by simp [List.append_assoc]
        · rw [← hp]; simp
        · rw [← hp]
          simp only [List.all_cons, Bool.and_eq_true]
          exact ⟨isIdentChar_of_start h1, takeWhile_all cs⟩
        · intro b
          rw [← hp]
          simp only [List.foldl_cons]
          rw [runStep_of_start b h1]
          exact foldl_runStep_ident (takeWhile_all cs)
      · rw [if_neg h2] at h; exact absurd h (by simp)
    · rw [if_neg h1] at h; exact absurd h (by simp)

theorem matchAt_sound {lit s p r : List Char} (h : matchAt lit s = some (p, r)) :
    s = p ++ lit ++ r ∧ p ≠ [] ∧ (∀ x ∈ p, isIdentChar x = true ∨ x = ':') ∧
      ∀ b, List.foldl runStep b p = true := by
  have fallback : ∀ {s' : List Char}, g2At lit s' = some (p, r) →
      s' = p ++ lit ++ r ∧ p ≠ [] ∧ (∀ x ∈ p, isIdentChar x = true ∨ x = ':') ∧
        ∀ b, List.foldl runStep b p = true := by
    intro s' hg
    obtain ⟨he, hne, hall, hfold⟩ := g2At_sound hg
    refine ⟨he, hne, ?_, hfold⟩
    intro x hx
    exact Or.inl (by simpa using List.all_eq_true.mp hall x hx)
  cases s with
  | nil => simp [matchAt] at h
  | cons c cs =>
    simp only [matchAt] at h
    by_cases h1 : isIdentStart c
    · rw [if_pos h1] at h
      split at h
      next d1 d2 rest2 heq =>
        by_cases h2 : d1 = ':' ∧ d2 = ':'
        · rw [if_pos h2] at h
          split at h
          next pr heq2 =>
            obtain ⟨p2, r2⟩ := pr
            obtain ⟨hg1, hg2, hg3, hg4⟩ := g2At_sound heq2
            simp only [Option.some.injEq, Prod.mk.injEq] at h
            obtain ⟨hp, hr⟩ := h
            obtain ⟨hd1, hd2⟩ := h2
            subst hd1 hd2
            subst hp hr
            have hcs : cs = cs.takeWhile isIdentChar ++ (':' :: ':' :: rest2) := by
              have h0 := List.takeWhile_append_dropWhile isIdentChar cs
              rw [heq] at h0
              exact h0.symm
            refine ⟨?_, by simp, ?_, ?_⟩
            · nth_rewrite 1 [hcs]
              rw [hg1]
              simp [List.append_assoc]
            · intro x hx
              rw [List.mem_append] at hx
              rcases hx with hx | hx
              · rcases List.mem_cons.mp hx with rfl | hx
                · exact Or.inl (isIdentChar_of_start h1)
                · exact Or.inl (by simpa using List.all_eq_true.mp (takeWhile_all cs) x hx)
              · rcases List.mem_cons.mp hx with rfl | hx
                · exact Or.inr rfl
                · rcases List.mem_cons.mp hx with rfl | hx
                  · exact Or.inr rfl
                  · exact Or.inl (by simpa using List.all_eq_true.mp hg3 x hx)
            · intro b
              have hsplit : (c :: cs.takeWhile isIdentChar) ++ ':' :: ':' :: p2
                  = ((c :: cs.takeWhile isIdentChar) ++ [':', ':']) ++ p2 := by simp
              rw [hsplit, List.foldl_append]
              exact hg4 _
          next heq2 => exact fallback h
        · rw [if_neg h2] at h
          exact fallback h
      next => exact fallback h
    · rw [if_neg h1] at h
      exact absurd h (by simp)

theorem callLit_eq (close : Char) :
    callLit close = '(' :: 'p' :: 'o' :: 'o' :: 'l' :: [close] := rfl

theorem matchAt_of_decomp {close c : Char} {run rest : List Char}
    (hc : isIdentStart c = true) (hrun : run.all isIdentChar = true) :
    matchAt (callLit close) (c :: (run ++ callLit close ++ rest)) ≠ none := by
  have hpar : isIdentChar '(' = false := by decide
  have hsplit := run_split hrun hpar ('p' :: 'o' :: 'o' :: 'l' :: close :: rest)
  have harr : run ++ callLit close ++ rest
      = run ++ '(' :: ('p' :: 'o' :: 'o' :: 'l' :: close :: rest) := by
    simp [callLit_eq]
  have hdw : (run ++ callLit close ++ rest).dropWhile isIdentChar
      = '(' :: 'p' :: 'o' :: 'o' :: 'l' :: close :: rest := by rw [harr]; exact hsplit.2
  have hg : g2At (callLit close) (c :: (run ++ callLit close ++ rest)) ≠ none := by
    simp only [g2At, hdw, if_pos hc]
    have : (callLit close).isPrefixOf ('(' :: 'p' :: 'o' :: 'o' :: 'l' :: close :: rest)
        = true := by
      apply List.isPrefixOf_iff_prefix.mpr
      exact ⟨rest, by simp [callLit_eq]⟩
    simp [this]
  simp only [matchAt, hdw, if_pos hc]
  have hne : ('(' : Char) = ':' ∧ ('p' : Char) = ':' ↔ False := by simp
  rw [if_neg (by simp)]
  exact hg

/-! ## The site detector -/

theorem siteClose_some {ds s : List Char} {d : Char} (h : siteClose ds s = some d) :
    d ∈ ds ∧ s = '(' :: 'p' :: 'o' :: 'o' :: 'l' :: d :: s.drop 6 := by
  rcases s with _ | ⟨c1, _ | ⟨c2, _ | ⟨c3, _ | ⟨c4, _ | ⟨c5, _ | ⟨c6, t⟩⟩⟩⟩⟩⟩ <;>
    simp only [siteClose] at h
  any_goals exact Option.noConfusion h
  split_ifs at h with hcond
  obtain ⟨h1, h2, h3, h4, h5, h6⟩ := hcond
  obtain rfl : c6 = d := by simpa using h
  subst h1 h2 h3 h4 h5
  exact ⟨h6, by simp⟩

theorem siteClose_none_head {ds cs : List Char} {c : Char} (h : c ≠ '(') :
    siteClose ds (c :: cs) = none := by
  rcases cs with _ | ⟨a1, _ | ⟨a2, _ | ⟨a3, _ | ⟨a4, _ | ⟨a5, t⟩⟩⟩⟩⟩ <;>
    simp [siteClose, h]

/-! ## Fuel elimination: the wrappers satisfy position-by-position equations -/

theorem matchAt_some_length {lit s p r : List Char} (h : matchAt lit s = some (p, r)) :
    r.length + lit.length + 1 ≤ s.length := by
  obtain ⟨he, hne, -, -⟩ := matchAt_sound h
  have : 1 ≤ p.length := by
    cases p with
    | nil => exact absurd rfl hne
    | cons x xs => simp
  rw [he]
  simp only [List.length_append]
  omega

theorem subLitF_nil (pat repl : List Char) (f : Nat) : subLitF pat repl f [] = [] := by
  cases f <;> rfl

theorem subLitF_irrel (pat repl : List Char) (hp : pat ≠ []) :
    ∀ n s f1 f2, s.length ≤ n → s.length ≤ f1 → s.length ≤ f2 →
      subLitF pat repl f1 s = subLitF pat repl f2 s := by
  have hplen : 1 ≤ pat.length := by
    cases pat with
    | nil => exact absurd rfl hp
    | cons x xs => simp
  intro n
  induction n with
  | zero =>
    intro s f1 f2 hn _ _
    have : s = [] := List.length_eq_zero.mp (Nat.le_zero.mp hn)
    subst this
    rw [subLitF_nil, subLitF_nil]
  | succ m ih =>
    intro s f1 f2 hn h1 h2
    cases s with
    | nil => rw [subLitF_nil, subLitF_nil]
    | cons c cs =>
      simp only [List.length_cons] at hn h1 h2
      obtain ⟨g1, rfl⟩ : ∃ g1, f1 = g1 + 1 := ⟨f1 - 1, by omega⟩
      obtain ⟨g2, rfl⟩ : ∃ g2, f2 = g2 + 1 := ⟨f2 - 1, by omega⟩
      simp only [subLitF]
      by_cases hpre : pat.isPrefixOf (c :: cs)
      · rw [if_pos hpre, if_pos hpre]
        have hlen : ((c :: cs).drop pat.length).length ≤ cs.length := by
          simp only [List.length_drop, List.length_cons]
          omega
        rw [ih ((c :: cs).drop pat.length) g1 g2 (by omega) (by omega) (by omega)]
      · rw [if_neg hpre, if_neg hpre]
        rw [ih cs g1 g2 (by omega) (by omega) (by omega)]

theorem subLit_nil (pat repl : List Char) : subLit pat repl [] = [] := rfl

theorem subLit_pos {pat : List Char} (hp : pat ≠ []) (repl : List Char) {s : List Char}
    (h : pat.isPrefixOf s = true) :
    subLit pat repl s = repl ++ subLit pat repl (s.drop pat.length) := by
  have hplen : 1 ≤ pat.length := by
    cases pat with
    | nil => exact absurd rfl hp
    | cons x xs => simp
  cases s with
  | nil =>
    exfalso
    have := List.isPrefixOf_iff_prefix.mp h
    have := List.eq_nil_of_prefix_nil this
    exact hp this
  | cons c cs =>
    show subLitF pat repl (cs.length + 1) (c :: cs) = _
    simp only [subLitF, if_pos h]
    congr 1
    apply subLitF_irrel pat repl hp ((c :: cs).drop pat.length).length
    · exact le_rfl
    · simp only [List.length_drop, List.length_cons]; omega
    · exact le_rfl

theorem subLit_neg {pat : List Char} (repl : List Char) {c : Char}
    {cs : List Char} (h : ¬ pat.isPrefixOf (c :: cs) = true) :
    subLit pat repl (c :: cs) = c :: subLit pat repl cs := by
  show subLitF pat repl (cs.length + 1) (c :: cs) = _
  simp only [subLitF, if_neg h]
  congr 1

theorem countLitF_nil (pat : List Char) (f : Nat) : countLitF pat f [] = 0 := by
  cases f <;> rfl

theorem subCallF_nil (close : Char) (f : Nat) : subCallF close f [] = [] := by
  cases f <;> rfl

theorem subCallF_irrel (close : Char) :
    ∀ n s f1 f2, s.length ≤ n → s.length ≤ f1 → s.length ≤ f2 →
      subCallF close f1 s = subCallF close f2 s := by
  intro n
  induction n with
  | zero =>
    intro s f1 f2 hn _ _
    have : s = [] := List.length_eq_zero.mp (Nat.le_zero.mp hn)
    subst this
    rw [subCallF_nil, subCallF_nil]
  | succ m ih =>
    intro s f1 f2 hn h1 h2
    cases s with
    | nil => rw [subCallF_nil, subCallF_nil]
    | cons c cs =>
      simp only [List.length_cons] at hn h1 h2
      obtain ⟨g1, rfl⟩ : ∃ g1, f1 = g1 + 1 := ⟨f1 - 1, by omega⟩
      obtain ⟨g2, rfl⟩ : ∃ g2, f2 = g2 + 1 := ⟨f2 - 1, by omega⟩
      simp only [subCallF]
      cases hm : matchAt (callLit close) (c :: cs) with
      | some pr =>
        obtain ⟨p, r⟩ := pr
        have hlen := matchAt_some_length hm
        simp only [List.length_cons] at hlen
        show p ++ callRepl close ++ subCallF close g1 r
            = p ++ callRepl close ++ subCallF close g2 r
        congr 1
        apply ih r g1 g2 <;> omega
      | none =>
        show c :: subCallF close g1 cs = c :: subCallF close g2 cs
        congr 1
        apply ih cs g1 g2 <;> omega

theorem subCall_nil (close : Char) : subCall close [] = [] := rfl

theorem subCall_match {close : Char} {s p r : List Char}
    (h : matchAt (callLit close) s = some (p, r)) :
    subCall close s = p ++ callRepl close ++ subCall close r := by
  cases s with
  | nil => simp [matchAt] at h
  | cons c cs =>
    show subCallF close (cs.length + 1) (c :: cs) = _
    have hlen := matchAt_some_length h
    simp only [List.length_cons] at hlen
    simp only [subCallF, h]
    have fix : subCallF close cs.length r = subCallF close r.length r := by
      apply subCallF_irrel close r.length r cs.length r.length <;> omega
    rw [fix]
    rfl

theorem subCall_nomatch {close : Char} {c : Char} {cs : List Char}
    (h : matchAt (callLit close) (c :: cs) = none) :
    subCall close (c :: cs) = c :: subCall close cs := by
  show subCallF close (cs.length + 1) (c :: cs) = _
  simp only [subCallF, h]
  congr 1

theorem insMF_nil (ds : List Char) (f : Nat) (b : Bool) : insMF ds f b [] = [] := by
  cases f <;> rfl

theorem insMF_irrel (ds : List Char) :
    ∀ n s b f1 f2, s.length ≤ n → s.length ≤ f1 → s.length ≤ f2 →
      insMF ds f1 b s = insMF ds f2 b s := by
  intro n
  induction n with
  | zero =>
    intro s b f1 f2 hn _ _
    have : s = [] := List.length_eq_zero.mp (Nat.le_zero.mp hn)
    subst this
    rw [insMF_nil, insMF_nil]
  | succ m ih =>
    intro s b f1 f2 hn h1 h2
    cases s with
    | nil => rw [insMF_nil, insMF_nil]
    | cons c cs =>
      simp only [List.length_cons] at hn h1 h2
      obtain ⟨g1, rfl⟩ : ∃ g1, f1 = g1 + 1 := ⟨f1 - 1, by omega⟩
      obtain ⟨g2, rfl⟩ : ∃ g2, f2 = g2 + 1 := ⟨f2 - 1, by omega⟩
      simp only [insMF]
      cases hm : (if b then siteClose ds (c :: cs) else none) with
      | some d =>
        have hsc : siteClose ds (c :: cs) = some d := by
          by_cases hb : b
          · rwa [if_pos hb] at hm
          · rw [if_neg hb] at hm; exact Option.noConfusion hm
        have hshape := (siteClose_some hsc).2
        have hlen6 : 6 ≤ cs.length + 1 := by
          have := congrArg List.length hshape
          simp only [List.length_cons, List.length_drop] at this
          omega
        have hdl : ((c :: cs).drop 6).length = cs.length + 1 - 6 := by
          simp only [List.length_drop, List.length_cons]
        show '(' :: '&' :: '*' :: 'p' :: 'o' :: 'o' :: 'l' :: d ::
              insMF ds g1 false ((c :: cs).drop 6)
            = '(' :: '&' :: '*' :: 'p' :: 'o' :: 'o' :: 'l' :: d ::
              insMF ds g2 false ((c :: cs).drop 6)
        simp only [List.cons.injEq, true_and]
        apply ih ((c :: cs).drop 6) false g1 g2 <;> omega
      | none =>
        show c :: insMF ds g1 (runStep b c) cs = c :: insMF ds g2 (runStep b c) cs
        congr 1
        apply ih cs (runStep b c) g1 g2 <;> omega

theorem insM_nil (ds : List Char) (b : Bool) : insM ds b [] = [] := rfl

theorem insM_fire {ds s : List Char} {d : Char} {b : Bool} (hb : b = true)
    (h : siteClose ds s = some d) :
    insM ds b s =
      '(' :: '&' :: '*' :: 'p' :: 'o' :: 'o' :: 'l' :: d :: insM ds false (s.drop 6) := by
  obtain ⟨hd, hshape⟩ := siteClose_some h
  cases s with
  | nil => exact absurd hshape (by simp)
  | cons c cs =>
    show insMF ds (cs.length + 1) b (c :: cs) = _
    subst hb
    have hlen6 : 6 ≤ cs.length + 1 := by
      have := congrArg List.length hshape
      simp only [List.length_cons, List.length_drop] at this
      omega
    have hdl : ((c :: cs).drop 6).length = cs.length + 1 - 6 := by
      simp only [List.length_drop, List.length_cons]
    simp only [insMF, if_true, h]
    show '(' :: '&' :: '*' :: 'p' :: 'o' :: 'o' :: 'l' :: d ::
          insMF ds cs.length false ((c :: cs).drop 6)
        = '(' :: '&' :: '*' :: 'p' :: 'o' :: 'o' :: 'l' :: d ::
          insMF ds ((c :: cs).drop 6).length false ((c :: cs).drop 6)
    simp only [List.cons.injEq, true_and]
    apply insMF_irrel ds ((c :: cs).drop 6).length ((c :: cs).drop 6) false <;> omega

theorem insM_nofire {ds : List Char} {b : Bool} {c : Char} {cs : List Char}
    (h : b = true → siteClose ds (c :: cs) = none) :
    insM ds b (c :: cs) = c :: insM ds (runStep b c) cs := by
  show insMF ds (cs.length + 1) b (c :: cs) = _
  have hnone : (if b then siteClose ds (c :: cs) else none) = none := by
    by_cases hb : b
    · rw [if_pos hb]; exact h hb
    · rw [if_neg hb]
  simp only [insMF, hnone]
  congr 1

/-! ## The insertion machine: walking and window lemmas -/

theorem insM_walk {ds : List Char} :
    ∀ (u : List Char) {b : Bool} (v : List Char), (∀ x ∈ u, x ≠ '(') →
      insM ds b (u ++ v) = u ++ insM ds (List.foldl runStep b u) v := by
  intro u
  induction u with
  | nil => intro b v _; simp
  | cons x xs ih =>
    intro b v hu
    have hx : x ≠ '(' := hu x (by simp)
    have hstep : insM ds b (x :: (xs ++ v)) = x :: insM ds (runStep b x) (xs ++ v) :=
      insM_nofire (fun _ => siteClose_none_head hx)
    rw [List.cons_append, hstep, ih v (fun y hy => hu y (by simp [hy]))]
    simp [List.foldl_cons]

theorem insM_take_in {ds : List Char} :
    ∀ n (s : List Char) (b : Bool) (k : Nat), s.length ≤ n → '(' ∉ s.take k →
      (insM ds b s).take k = s.take k := by
  intro n
  induction n with
  | zero =>
    intro s b k hn _
    have : s = [] := List.length_eq_zero.mp (Nat.le_zero.mp hn)
    subst this
    rw [insM_nil]
  | succ m ih =>
    intro s b k hn hk
    cases s with
    | nil => rw [insM_nil]
    | cons c cs =>
      cases k with
      | zero => simp
      | succ j =>
        simp only [List.length_cons] at hn
        simp only [List.take_succ_cons, List.mem_cons] at hk
        push_neg at hk
        have hc : c ≠ '(' := fun hcc => hk.1 hcc.symm
        rw [insM_nofire (fun _ => siteClose_none_head hc)]
        simp only [List.take_succ_cons]
        congr 1
        apply ih cs (runStep b c) j (by omega) hk.2

theorem insM_take_out {ds : List Char} :
    ∀ n (s : List Char) (b : Bool) (k : Nat), s.length ≤ n →
      '(' ∉ (insM ds b s).take k → (insM ds b s).take k = s.take k := by
  intro n
  induction n with
  | zero =>
    intro s b k hn _
    have : s = [] := List.length_eq_zero.mp (Nat.le_zero.mp hn)
    subst this
    rw [insM_nil]
  | succ m ih =>
    intro s b k hn hk
    cases s with
    | nil => rw [insM_nil]
    | cons c cs =>
      by_cases hfire : b = true ∧ ∃ d, siteClose ds (c :: cs) = some d
      · obtain ⟨hb, d, hsc⟩ := hfire
        rw [insM_fire hb hsc] at hk ⊢
        cases k with
        | zero => simp
        | succ j =>
          exfalso
          apply hk
          simp [List.take_succ_cons]
      · have hnof : b = true → siteClose ds (c :: cs) = none := by
          intro hb
          cases hsc : siteClose ds (c :: cs) with
          | none => rfl
          | some d => exact absurd ⟨hb, d, hsc⟩ hfire
        rw [insM_nofire hnof] at hk ⊢
        cases k with
        | zero => simp
        | succ j =>
          simp only [List.length_cons] at hn
          simp only [List.take_succ_cons, List.mem_cons] at hk
          push_neg at hk
          simp only [List.take_succ_cons]
          congr 1
          apply ih cs (runStep b c) j (by omega) hk.2

/-! ## The generic-rule scanners equal the insertion machine -/

theorem subCall_eq_insM_aux (close : Char) :
    ∀ n (s : List Char) (b : Bool), s.length ≤ n → InvM close b s →
      insM [close] b s = subCall close s := by
  intro n
  induction n with
  | zero =>
    intro s b hn _
    have : s = [] := List.length_eq_zero.mp (Nat.le_zero.mp hn)
    subst this
    rw [insM_nil, subCall_nil]
  | succ m ih =>
    intro s b hn hinv
    cases s with
    | nil => rw [insM_nil, subCall_nil]
    | cons c cs =>
      simp only [List.length_cons] at hn
      cases hm : matchAt (callLit close) (c :: cs) with
      | some pr =>
        obtain ⟨p, r⟩ := pr
        obtain ⟨he, hne, hchars, hfold⟩ := matchAt_sound hm
        have hpnp : ∀ x ∈ p, x ≠ '(' := by
          intro x hx hcon
          subst hcon
          rcases hchars _ hx with h | h
          · exact absurd h (by decide)
          · exact absurd h (by decide)
        have hrlen : r.length + 7 ≤ cs.length + 1 := by
          have := matchAt_some_length hm
          simpa [callLit_eq] using this
        rw [subCall_match hm, he, List.append_assoc,
          insM_walk p (callLit close ++ r) hpnp, hfold b]
        have hsc : siteClose [close] (callLit close ++ r) = some close := by
          simp [callLit_eq, siteClose]
        rw [insM_fire rfl hsc]
        have hdrop : (callLit close ++ r).drop 6 = r := by simp [callLit_eq]
        rw [hdrop]
        have hr : insM [close] false r = subCall close r := by
          apply ih r false (by omega)
          intro hb
          exact absurd hb (by simp)
        rw [hr]
        simp [callRepl, List.append_assoc]
      | none =>
        have hnof : b = true → siteClose [close] (c :: cs) = none := by
          intro hb
          cases hsc : siteClose [close] (c :: cs) with
          | none => rfl
          | some d =>
            obtain ⟨hd, hshape⟩ := siteClose_some hsc
            have hdc : d = close := by simpa using hd
            subst hdc
            exact (hinv hb [] ((c :: cs).drop 6)
              (by rw [hshape]; simp [callLit_eq]) rfl).elim
        rw [insM_nofire hnof, subCall_nomatch hm]
        have hinv2 : InvM close (runStep b c) cs := by
          intro hb run rest hdecomp hall
          have hc : isIdentChar c = true ∧ (b = true ∨ isIdentStart c = true) := by
            simpa [runStep, Bool.and_eq_true, Bool.or_eq_true] using hb
          rcases hc.2 with hb2 | hst
          · exact hinv hb2 (c :: run) rest (by rw [hdecomp]; simp)
              (by simp [hc.1, hall])
          · rw [hdecomp] at hm
            exact (matchAt_of_decomp hst hall) hm
        rw [ih cs (runStep b c) (by omega) hinv2]

theorem subCall_eq_insM (close : Char) (s : List Char) :
    subCall close s = insM [close] false s :=
  (subCall_eq_insM_aux close s.length s false le_rfl
    (fun hb => Bool.noConfusion hb)).symm

/-! ## Fusing the two generic passes into the combined machine -/

theorem siteClose_of_shape {ds : List Char} {d : Char} (t : List Char) (hd : d ∈ ds) :
    siteClose ds ('(' :: 'p' :: 'o' :: 'o' :: 'l' :: d :: t) = some d := by
  simp [siteClose, hd]

theorem siteClose_of_shape_not {ds : List Char} {d : Char} (t : List Char) (hd : d ∉ ds) :
    siteClose ds ('(' :: 'p' :: 'o' :: 'o' :: 'l' :: d :: t) = none := by
  simp [siteClose, hd]

theorem siteClose_none_two {ds rest : List Char} {c1 c2 : Char} (h : c2 ≠ 'p') :
    siteClose ds (c1 :: c2 :: rest) = none := by
  rcases rest with _ | ⟨a1, _ | ⟨a2, _ | ⟨a3, _ | ⟨a4, t⟩⟩⟩⟩ <;> simp [siteClose, h]

theorem runStep_paren (b : Bool) : runStep b '(' = false :=
  runStep_of_not_ident b (by decide)

theorem insM_fuse :
    ∀ n (s : List Char) (b : Bool), s.length ≤ n →
      insM [')'] b (insM [','] b s) = insM bothClosers b s := by
  intro n
  induction n with
  | zero =>
    intro s b hn
    have : s = [] := List.length_eq_zero.mp (Nat.le_zero.mp hn)
    subst this
    rw [insM_nil, insM_nil, insM_nil]
  | succ m ih =>
    intro s b hn
    cases s with
    | nil => rw [insM_nil, insM_nil, insM_nil]
    | cons c cs =>
      simp only [List.length_cons] at hn
      by_cases hb : b = true
      · subst hb
        cases hscB : siteClose bothClosers (c :: cs) with
        | some d =>
          obtain ⟨hd, hshape⟩ := siteClose_some hscB
          simp only [List.cons.injEq, List.drop_succ_cons] at hshape
          obtain ⟨rfl, hcs⟩ := hshape
          obtain ⟨t, rfl⟩ : ∃ t, cs = 'p' :: 'o' :: 'o' :: 'l' :: d :: t :=
            ⟨cs.drop 5, hcs⟩
          have htlen : t.length + 5 ≤ m := by
            simp only [List.length_cons] at hn
            omega
          rcases (by simpa [bothClosers] using hd : d = ')' ∨ d = ',') with rfl | rfl
          · -- a `)` site: the comma pass walks it unchanged, the paren pass fires
            have h1 : siteClose [','] ('(' :: 'p' :: 'o' :: 'o' :: 'l' :: ')' :: t)
                = none := siteClose_of_shape_not t (by decide)
            rw [insM_nofire (fun _ => h1), runStep_paren]
            have hwalk : insM [','] false ('p' :: 'o' :: 'o' :: 'l' :: ')' :: t)
                = 'p' :: 'o' :: 'o' :: 'l' :: ')' :: insM [','] false t := by
              have := @insM_walk [','] ['p', 'o', 'o', 'l', ')'] false t (by decide)
              simpa using this
            rw [hwalk]
            have h2 : siteClose [')']
                ('(' :: 'p' :: 'o' :: 'o' :: 'l' :: ')' :: insM [','] false t)
                = some ')' := siteClose_of_shape _ (by decide)
            rw [insM_fire rfl h2]
            have h3 : siteClose bothClosers
                ('(' :: 'p' :: 'o' :: 'o' :: 'l' :: ')' :: t)
                = some ')' := siteClose_of_shape _ (by decide)
            rw [insM_fire rfl h3]
            simp only [List.drop_succ_cons, List.drop_zero]
            simp only [List.cons.injEq, eq_self_iff_true, true_and]
            exact ih t false (by omega)
          · -- a `,` site: the comma pass fires, the paren pass walks the result
            have h1 : siteClose [','] ('(' :: 'p' :: 'o' :: 'o' :: 'l' :: ',' :: t)
                = some ',' := siteClose_of_shape _ (by decide)
            rw [insM_fire rfl h1]
            simp only [List.drop_succ_cons, List.drop_zero]
            have h2 : siteClose [')']
                ('(' :: '&' :: '*' :: 'p' :: 'o' :: 'o' :: 'l' :: ',' ::
                  insM [','] false t) = none := siteClose_none_two (by decide)
            rw [insM_nofire (fun _ => h2), runStep_paren]
            have hwalk : insM [')'] false
                ('&' :: '*' :: 'p' :: 'o' :: 'o' :: 'l' :: ',' :: insM [','] false t)
                = '&' :: '*' :: 'p' :: 'o' :: 'o' :: 'l' :: ',' ::
                  insM [')'] false (insM [','] false t) := by
              have := @insM_walk [')'] ['&', '*', 'p', 'o', 'o', 'l', ','] false
                (insM [','] false t) (by decide)
              simpa using this
            rw [hwalk]
            have h3 : siteClose bothClosers
                ('(' :: 'p' :: 'o' :: 'o' :: 'l' :: ',' :: t)
                = some ',' := siteClose_of_shape _ (by decide)
            rw [insM_fire rfl h3]
            simp only [List.drop_succ_cons, List.drop_zero]
            simp only [List.cons.injEq, eq_self_iff_true, true_and]
            exact ih t false (by omega)
        | none =>
          -- no combined site at the head: neither pass fires here
          have h1 : siteClose [','] (c :: cs) = none := by
            cases hsc : siteClose [','] (c :: cs) with
            | none => rfl
            | some d =>
              obtain ⟨hd, hshape⟩ := siteClose_some hsc
              have : siteClose bothClosers (c :: cs) = some d := by
                rw [hshape]
                exact siteClose_of_shape _ (by
                  simp only [List.mem_singleton] at hd
                  simp [bothClosers, hd])
              rw [hscB] at this
              exact Option.noConfusion this
          rw [insM_nofire (fun _ => h1)]
          have h2 : siteClose [')'] (c :: insM [','] (runStep true c) cs) = none := by
            cases hsc : siteClose [')'] (c :: insM [','] (runStep true c) cs) with
            | none => rfl
            | some d =>
              exfalso
              obtain ⟨hd, hshape⟩ := siteClose_some hsc
              simp only [List.mem_singleton] at hd
              subst hd
              simp only [List.cons.injEq, List.drop_succ_cons] at hshape
              obtain ⟨rfl, hX⟩ := hshape
              have htk : (insM [','] (runStep true '(') cs).take 5
                  = ['p', 'o', 'o', 'l', ')'] := by
                rw [hX]
                simp
              have htk2 : cs.take 5 = ['p', 'o', 'o', 'l', ')'] := by
                rw [← insM_take_out cs.length cs (runStep true '(') 5 le_rfl
                  (by rw [htk]; decide)]
                exact htk
              have hcs5 : cs = 'p' :: 'o' :: 'o' :: 'l' :: ')' :: cs.drop 5 := by
                conv_lhs => rw [← List.take_append_drop 5 cs]
                rw [htk2]
                rfl
              have : siteClose bothClosers ('(' :: cs) = some ')' := by
                rw [hcs5]
                exact siteClose_of_shape _ (by decide)
              rw [hscB] at this
              exact Option.noConfusion this
          rw [insM_nofire (fun _ => h2)]
          rw [insM_nofire (fun _ => hscB)]
          congr 1
          exact ih cs (runStep true c) (by omega)
      · have hb2 : b = false := by
          cases b
          · rfl
          · exact absurd rfl hb
        subst hb2
        rw [insM_nofire (fun hx => Bool.noConfusion hx)]
        rw [insM_nofire (fun hx => Bool.noConfusion hx)]
        rw [insM_nofire (fun hx => Bool.noConfusion hx)]
        congr 1
        exact ih cs (runStep false c) (by omega)

/-! ## Idempotence of the combined machine -/

theorem insM_idem :
    ∀ n (s : List Char) (b : Bool), s.length ≤ n →
      insM bothClosers b (insM bothClosers b s) = insM bothClosers b s := by
  intro n
  induction n with
  | zero =>
    intro s b hn
    have : s = [] := List.length_eq_zero.mp (Nat.le_zero.mp hn)
    subst this
    rw [insM_nil, insM_nil]
  | succ m ih =>
    intro s b hn
    cases s with
    | nil => rw [insM_nil, insM_nil]
    | cons c cs =>
      simp only [List.length_cons] at hn
      by_cases hb : b = true
      · subst hb
        cases hsc : siteClose bothClosers (c :: cs) with
        | some d =>
          obtain ⟨hd, hshape⟩ := siteClose_some hsc
          simp only [List.cons.injEq, List.drop_succ_cons] at hshape
          obtain ⟨rfl, hcs⟩ := hshape
          obtain ⟨t, rfl⟩ : ∃ t, cs = 'p' :: 'o' :: 'o' :: 'l' :: d :: t :=
            ⟨cs.drop 5, hcs⟩
          simp only [List.length_cons] at hn
          have hdor : d = ')' ∨ d = ',' := by simpa [bothClosers] using hd
          have hdne : d ≠ '(' := by rcases hdor with rfl | rfl <;> decide
          rw [insM_fire rfl hsc]
          simp only [List.drop_succ_cons, List.drop_zero]
          have h2 : siteClose bothClosers
              ('(' :: '&' :: '*' :: 'p' :: 'o' :: 'o' :: 'l' :: d ::
                insM bothClosers false t) = none := siteClose_none_two (by decide)
          rw [insM_nofire (fun _ => h2), runStep_paren]
          have hwalk : insM bothClosers false
              ('&' :: '*' :: 'p' :: 'o' :: 'o' :: 'l' :: d :: insM bothClosers false t)
              = '&' :: '*' :: 'p' :: 'o' :: 'o' :: 'l' :: d ::
                insM bothClosers (List.foldl runStep false
                  ['&', '*', 'p', 'o', 'o', 'l', d]) (insM bothClosers false t) := by
            have := @insM_walk bothClosers ['&', '*', 'p', 'o', 'o', 'l', d] false
              (insM bothClosers false t) (by
                intro x hx
                simp only [List.mem_cons] at hx
                rcases hx with rfl | rfl | rfl | rfl | rfl | rfl | hx
                · decide
                · decide
                · decide
                · decide
                · decide
                · decide
                · rcases hx with rfl | hx
                  · exact hdne
                  · exact absurd hx (by simp))
            simpa using this
          rw [hwalk]
          have hfold : List.foldl runStep false ['&', '*', 'p', 'o', 'o', 'l', d]
              = false := by
            rcases hdor with rfl | rfl <;> decide
          rw [hfold]
          simp only [List.cons.injEq, eq_self_iff_true, true_and]
          exact ih t false (by omega)
        | none =>
          rw [insM_nofire (fun _ => hsc)]
          have h2 : siteClose bothClosers
              (c :: insM bothClosers (runStep true c) cs) = none := by
            cases hsc2 : siteClose bothClosers
                (c :: insM bothClosers (runStep true c) cs) with
            | none => rfl
            | some d =>
              exfalso
              obtain ⟨hd, hshape⟩ := siteClose_some hsc2
              simp only [List.cons.injEq, List.drop_succ_cons] at hshape
              obtain ⟨rfl, hX⟩ := hshape
              have hdor : d = ')' ∨ d = ',' := by simpa [bothClosers] using hd
              have htk : (insM bothClosers (runStep true '(') cs).take 5
                  = ['p', 'o', 'o', 'l', d] := by
                rw [hX]
                simp
              have htk2 : cs.take 5 = ['p', 'o', 'o', 'l', d] := by
                rw [← insM_take_out cs.length cs (runStep true '(') 5 le_rfl
                  (by
                    rw [htk]
                    intro hmem
                    simp only [List.mem_cons] at hmem
                    rcases hmem with h | h | h | h | h | h
                    · exact absurd h (by decide)
                    · exact absurd h (by decide)
                    · exact absurd h (by decide)
                    · exact absurd h (by decide)
                    · rcases hdor with rfl | rfl <;> exact absurd h (by decide)
                    · exact absurd h (by simp))]
                exact htk
              have hcs5 : cs = 'p' :: 'o' :: 'o' :: 'l' :: d :: cs.drop 5 := by
                conv_lhs => rw [← List.take_append_drop 5 cs]
                rw [htk2]
                rfl
              have : siteClose bothClosers ('(' :: cs) = some d := by
                rw [hcs5]
                exact siteClose_of_shape _ hd
              rw [hsc] at this
              exact Option.noConfusion this
          rw [insM_nofire (fun _ => h2)]
          congr 1
          exact ih cs (runStep true c) (by omega)
      · have hb2 : b = false := by
          cases b
          · rfl
          · exact absurd rfl hb
        subst hb2
        rw [insM_nofire (fun hx => Bool.noConfusion hx)]
        rw [insM_nofire (fun hx => Bool.noConfusion hx)]
        congr 1
        exact ih cs (runStep false c) (by omega)

/-! ## Length monotonicity and strictness -/

theorem insM_mono (ds : List Char) :
    ∀ n (s : List Char) (b : Bool), s.length ≤ n →
      s.length ≤ (insM ds b s).length := by
  intro n
  induction n with
  | zero =>
    intro s b hn
    have : s = [] := List.length_eq_zero.mp (Nat.le_zero.mp hn)
    subst this
    rw [insM_nil]
  | succ m ih =>
    intro s b hn
    cases s with
    | nil => rw [insM_nil]
    | cons c cs =>
      simp only [List.length_cons] at hn
      by_cases hfire : b = true ∧ ∃ d, siteClose ds (c :: cs) = some d
      · obtain ⟨hb, d, hsc⟩ := hfire
        obtain ⟨hd, hshape⟩ := siteClose_some hsc
        simp only [List.cons.injEq, List.drop_succ_cons] at hshape
        obtain ⟨rfl, hcs⟩ := hshape
        obtain ⟨t, rfl⟩ : ∃ t, cs = 'p' :: 'o' :: 'o' :: 'l' :: d :: t :=
          ⟨cs.drop 5, hcs⟩
        simp only [List.length_cons] at hn
        rw [insM_fire hb hsc]
        simp only [List.drop_succ_cons, List.drop_zero, List.length_cons]
        have := ih t false (by omega)
        omega
      · have hnof : b = true → siteClose ds (c :: cs) = none := by
          intro hb
          cases hsc : siteClose ds (c :: cs) with
          | none => rfl
          | some d => exact absurd ⟨hb, d, hsc⟩ hfire
        rw [insM_nofire hnof]
        simp only [List.length_cons]
        have := ih cs (runStep b c) (by omega)
        omega

theorem insM_dich (ds : List Char) :
    ∀ n (s : List Char) (b : Bool), s.length ≤ n →
      insM ds b s = s ∨ s.length < (insM ds b s).length := by
  intro n
  induction n with
  | zero =>
    intro s b hn
    have : s = [] := List.length_eq_zero.mp (Nat.le_zero.mp hn)
    subst this
    rw [insM_nil]
    exact Or.inl rfl
  | succ m ih =>
    intro s b hn
    cases s with
    | nil => rw [insM_nil]; exact Or.inl rfl
    | cons c cs =>
      simp only [List.length_cons] at hn
      by_cases hfire : b = true ∧ ∃ d, siteClose ds (c :: cs) = some d
      · obtain ⟨hb, d, hsc⟩ := hfire
        obtain ⟨hd, hshape⟩ := siteClose_some hsc
        simp only [List.cons.injEq, List.drop_succ_cons] at hshape
        obtain ⟨rfl, hcs⟩ := hshape
        obtain ⟨t, rfl⟩ : ∃ t, cs = 'p' :: 'o' :: 'o' :: 'l' :: d :: t :=
          ⟨cs.drop 5, hcs⟩
        simp only [List.length_cons] at hn
        rw [insM_fire hb hsc]
        right
        simp only [List.drop_succ_cons, List.drop_zero, List.length_cons]
        have := insM_mono ds t.length t false le_rfl
        omega
      · have hnof : b = true → siteClose ds (c :: cs) = none := by
          intro hb
          cases hsc : siteClose ds (c :: cs) with
          | none => rfl
          | some d => exact absurd ⟨hb, d, hsc⟩ hfire
        rw [insM_nofire hnof]
        rcases ih cs (runStep b c) (by omega) with heq | hlt
        · left; rw [heq]
        · right; simp only [List.length_cons]; omega

/-! ## Occurrence counting -/

theorem pfx_through {pat : List Char} {c0 : Char} (h : c0 ∉ pat) :
    ∀ (u v : List Char),
      (pat.isPrefixOf (u ++ c0 :: v) = true ↔ pat.isPrefixOf u = true) := by
  intro u
  induction u generalizing pat with
  | nil =>
    intro v
    cases pat with
    | nil => simp [List.isPrefixOf]
    | cons p ps =>
      have hp : p ≠ c0 := fun hpc => h (by simp [hpc])
      simp [List.isPrefixOf, hp]
  | cons x u2 ih =>
    intro v
    cases pat with
    | nil => simp [List.isPrefixOf]
    | cons p ps =>
      have hps : c0 ∉ ps := fun hmem => h (by simp [hmem])
      simp only [List.cons_append, List.isPrefixOf, Bool.and_eq_true, beq_iff_eq,
        List.append_eq]
      rw [ih hps v]

theorem countOcc_split {pat : List Char} (hne : pat ≠ []) {c0 : Char} (h : c0 ∉ pat) :
    ∀ (u v : List Char),
      countOcc pat (u ++ c0 :: v) = countOcc pat u + countOcc pat v := by
  intro u
  induction u with
  | nil =>
    intro v
    have h0 := pfx_through h [] v
    simp only [List.nil_append] at h0
    have hpf : pat.isPrefixOf (c0 :: v) ≠ true := by
      intro hc
      rw [h0] at hc
      cases pat with
      | nil => exact absurd rfl hne
      | cons p ps => simp [List.isPrefixOf] at hc
    simp only [List.nil_append, countOcc, if_neg hpf]
  | cons x u2 ih =>
    intro v
    have hiff := pfx_through h (x :: u2) v
    simp only [List.cons_append] at hiff
    simp only [List.cons_append, countOcc, List.append_eq]
    rw [ih v]
    by_cases hpf : pat.isPrefixOf (x :: u2) = true
    · rw [if_pos (hiff.mpr hpf), if_pos hpf]
      omega
    · rw [if_neg (fun hc => hpf (hiff.mp hc)), if_neg hpf]
      omega

theorem pfx_take {pat t : List Char} :
    pat.isPrefixOf t = true ↔ t.take pat.length = pat := by
  rw [List.isPrefixOf_iff_prefix, List.prefix_iff_eq_take]
  exact ⟨fun h => h.symm, fun h => h.symm⟩

theorem insM_pfx_iff {pat : List Char} (hpar : '(' ∉ pat) {cs : List Char} {b : Bool}
    {ds : List Char} :
    (pat.isPrefixOf (insM ds b cs) = true ↔ pat.isPrefixOf cs = true) := by
  constructor
  · intro h
    rw [pfx_take] at h ⊢
    rw [← insM_take_out cs.length cs b pat.length le_rfl (by rw [h]; exact hpar)]
    exact h
  · intro h
    rw [pfx_take] at h ⊢
    rw [insM_take_in cs.length cs b pat.length le_rfl (by rw [h]; exact hpar)]
    exact h

theorem insM_countOcc {pat : List Char} (hne : pat ≠ []) (hpar : '(' ∉ pat)
    (hcp : ')' ∉ pat) (hcm : ',' ∉ pat)
    (hpool : countOcc pat ['p', 'o', 'o', 'l'] = 0)
    (hamp : countOcc pat ['&', '*', 'p', 'o', 'o', 'l'] = 0) :
    ∀ n (s : List Char) (b : Bool), s.length ≤ n →
      countOcc pat (insM bothClosers b s) = countOcc pat s := by
  intro n
  induction n with
  | zero =>
    intro s b hn
    have : s = [] := List.length_eq_zero.mp (Nat.le_zero.mp hn)
    subst this
    rw [insM_nil]
  | succ m ih =>
    intro s b hn
    cases s with
    | nil => rw [insM_nil]
    | cons c cs =>
      simp only [List.length_cons] at hn
      by_cases hfire : b = true ∧ ∃ d, siteClose bothClosers (c :: cs) = some d
      · obtain ⟨hb, d, hsc⟩ := hfire
        obtain ⟨hd, hshape⟩ := siteClose_some hsc
        simp only [List.cons.injEq, List.drop_succ_cons] at hshape
        obtain ⟨rfl, hcs⟩ := hshape
        obtain ⟨t, rfl⟩ : ∃ t, cs = 'p' :: 'o' :: 'o' :: 'l' :: d :: t :=
          ⟨cs.drop 5, hcs⟩
        simp only [List.length_cons] at hn
        have hdne : d ∉ pat := by
          rcases (by simpa [bothClosers] using hd : d = ')' ∨ d = ',') with rfl | rfl
          · exact hcp
          · exact hcm
        rw [insM_fire hb hsc]
        simp only [List.drop_succ_cons, List.drop_zero]
        have hL : countOcc pat ('(' :: '&' :: '*' :: 'p' :: 'o' :: 'o' :: 'l' :: d ::
            insM bothClosers false t) = countOcc pat (insM bothClosers false t) := by
          have e1 : '(' :: '&' :: '*' :: 'p' :: 'o' :: 'o' :: 'l' :: d ::
              insM bothClosers false t
              = [] ++ '(' :: (['&', '*', 'p', 'o', 'o', 'l'] ++ d ::
                insM bothClosers false t) := by simp
          rw [e1, countOcc_split hne hpar, countOcc_split hne hdne, hamp]
          simp [countOcc]
        have hR : countOcc pat ('(' :: 'p' :: 'o' :: 'o' :: 'l' :: d :: t)
            = countOcc pat t := by
          have e2 : '(' :: 'p' :: 'o' :: 'o' :: 'l' :: d :: t
              = [] ++ '(' :: (['p', 'o', 'o', 'l'] ++ d :: t) := by simp
          rw [e2, countOcc_split hne hpar, countOcc_split hne hdne, hpool]
          simp [countOcc]
        rw [hL, hR]
        exact ih t false (by omega)
      · have hnof : b = true → siteClose bothClosers (c :: cs) = none := by
          intro hb
          cases hsc : siteClose bothClosers (c :: cs) with
          | none => rfl
          | some d => exact absurd ⟨hb, d, hsc⟩ hfire
        have hstep := @insM_nofire bothClosers b c cs hnof
        have hiff : pat.isPrefixOf (insM bothClosers b (c :: cs)) = true
            ↔ pat.isPrefixOf (c :: cs) = true := insM_pfx_iff hpar
        rw [hstep] at hiff
        rw [hstep]
        simp only [countOcc]
        rw [ih cs (runStep b c) (by omega)]
        by_cases hpf : pat.isPrefixOf (c :: cs) = true
        · rw [if_pos (hiff.mpr hpf), if_pos hpf]
        · rw [if_neg (fun hc => hpf (hiff.mp hc)), if_neg hpf]

/-! ## The literal rules are absorbed by the combined machine -/

theorem ne_paren_of_identChar {x : Char} (h : isIdentChar x = true) : x ≠ '(' :=
  fun hx => absurd (hx ▸ h) (by decide)

theorem litPat_head {c0 c : Char} {w1 cs : List Char}
    (h : (litPat c0 w1).isPrefixOf (c :: cs) = true) : c = '.' := by
  simp only [litPat, List.isPrefixOf, Bool.and_eq_true, beq_iff_eq] at h
  exact h.1.symm

theorem subLit_take_in {c0 : Char} {w1 : List Char} (repl : List Char) :
    ∀ n (t : List Char) (k : Nat), t.length ≤ n → '.' ∉ t.take k →
      (subLit (litPat c0 w1) repl t).take k = t.take k := by
  intro n
  induction n with
  | zero =>
    intro t k hn _
    have : t = [] := List.length_eq_zero.mp (Nat.le_zero.mp hn)
    subst this
    rw [subLit_nil]
  | succ m ih =>
    intro t k hn hk
    cases t with
    | nil => rw [subLit_nil]
    | cons c cs =>
      simp only [List.length_cons] at hn
      by_cases hpre : (litPat c0 w1).isPrefixOf (c :: cs) = true
      · obtain rfl : c = '.' := litPat_head hpre
        cases k with
        | zero => simp
        | succ j =>
          exfalso
          exact hk (by simp [List.take_succ_cons])
      · rw [subLit_neg repl hpre]
        cases k with
        | zero => simp
        | succ j =>
          simp only [List.take_succ_cons, List.mem_cons] at hk
          push_neg at hk
          simp only [List.take_succ_cons]
          congr 1
          exact ih cs j (by omega) hk.2

theorem subLit_take_out {c0 : Char} {w1 : List Char} {c1 : Char} {r1 : List Char} :
    ∀ n (t : List Char) (k : Nat), t.length ≤ n →
      '.' ∉ (subLit (litPat c0 w1) (litRepl c1 r1) t).take k →
      (subLit (litPat c0 w1) (litRepl c1 r1) t).take k = t.take k := by
  intro n
  induction n with
  | zero =>
    intro t k hn _
    have : t = [] := List.length_eq_zero.mp (Nat.le_zero.mp hn)
    subst this
    rw [subLit_nil]
  | succ m ih =>
    intro t k hn hk
    cases t with
    | nil => rw [subLit_nil]
    | cons c cs =>
      simp only [List.length_cons] at hn
      by_cases hpre : (litPat c0 w1).isPrefixOf (c :: cs) = true
      · obtain rfl : c = '.' := litPat_head hpre
        rw [subLit_pos (by simp [litPat]) _ hpre] at hk ⊢
        cases k with
        | zero => simp
        | succ j =>
          exfalso
          exact hk (by simp [litRepl, List.take_succ_cons])
      · rw [subLit_neg _ hpre] at hk ⊢
        cases k with
        | zero => simp
        | succ j =>
          simp only [List.take_succ_cons, List.mem_cons] at hk
          push_neg at hk
          simp only [List.take_succ_cons]
          congr 1
          exact ih cs j (by omega) hk.2

theorem subLit_walk {c0 : Char} {w1 : List Char} (repl : List Char) :
    ∀ (u v : List Char), (∀ x ∈ u, x ≠ '.') →
      subLit (litPat c0 w1) repl (u ++ v) = u ++ subLit (litPat c0 w1) repl v := by
  intro u
  induction u with
  | nil => intro v _; simp
  | cons x u2 ih =>
    intro v hu
    have hx : x ≠ '.' := hu x (by simp)
    have hpre : ¬ (litPat c0 w1).isPrefixOf (x :: (u2 ++ v)) = true :=
      fun hc => hx (litPat_head hc)
    rw [List.cons_append, subLit_neg repl hpre, ih v (fun y hy => hu y (by simp [hy])),
      List.cons_append]

theorem insM_subLit (c0 : Char) (w1 : List Char) (hc0 : isIdentStart c0 = true)
    (hw1 : w1.all isIdentChar = true) :
    ∀ n (s : List Char) (b : Bool), s.length ≤ n →
      insM bothClosers b (subLit (litPat c0 w1) (litRepl c0 w1) s)
        = insM bothClosers b s := by
  have hpref : ∀ x ∈ '.' :: c0 :: w1, x ≠ '(' := by
    intro x hx
    simp only [List.mem_cons] at hx
    rcases hx with rfl | rfl | hx
    · decide
    · exact ne_paren_of_identChar (isIdentChar_of_start hc0)
    · exact ne_paren_of_identChar (by simpa using List.all_eq_true.mp hw1 x hx)
  have hfoldw : ∀ b : Bool, List.foldl runStep b ('.' :: c0 :: w1) = true := by
    intro b
    simp only [List.foldl_cons]
    rw [runStep_of_not_ident b (by decide), runStep_of_start false hc0]
    exact foldl_runStep_ident hw1
  intro n
  induction n with
  | zero =>
    intro s b hn
    have : s = [] := List.length_eq_zero.mp (Nat.le_zero.mp hn)
    subst this
    rw [subLit_nil]
  | succ m ih =>
    intro s b hn
    cases s with
    | nil => rw [subLit_nil]
    | cons c cs =>
      simp only [List.length_cons] at hn
      by_cases hpre : (litPat c0 w1).isPrefixOf (c :: cs) = true
      · -- the literal pattern matches here; both sides rewrite this site
        have hsplit : litPat c0 w1 ++ (c :: cs).drop (litPat c0 w1).length = c :: cs :=
          List.prefix_iff_eq_append.mp (List.isPrefixOf_iff_prefix.mp hpre)
        obtain ⟨rest, hrest⟩ : ∃ rest,
            c :: cs = litPat c0 w1 ++ rest := ⟨_, hsplit.symm⟩
        have hrlen : rest.length + w1.length + 8 = cs.length + 1 := by
          have := congrArg List.length hrest
          simp [litPat] at this
          omega
        have hdrop : (c :: cs).drop (litPat c0 w1).length = rest := by
          rw [hrest, List.drop_left]
        rw [subLit_pos (by simp [litPat]) _ hpre, hdrop, hrest]
        have eL : litRepl c0 w1 ++ subLit (litPat c0 w1) (litRepl c0 w1) rest
            = ('.' :: c0 :: w1) ++ ('(' :: '&' :: '*' :: 'p' :: 'o' :: 'o' :: 'l' ::
              ')' :: subLit (litPat c0 w1) (litRepl c0 w1) rest) := by
          simp [litRepl]
        have eR : litPat c0 w1 ++ rest
            = ('.' :: c0 :: w1) ++ ('(' :: 'p' :: 'o' :: 'o' :: 'l' :: ')' :: rest) := by
          simp [litPat]
        rw [eL, eR, insM_walk _ _ hpref, insM_walk _ _ hpref, hfoldw b]
        have hnof : siteClose bothClosers
            ('(' :: '&' :: '*' :: 'p' :: 'o' :: 'o' :: 'l' :: ')' ::
              subLit (litPat c0 w1) (litRepl c0 w1) rest) = none :=
          siteClose_none_two (by decide)
        rw [insM_nofire (fun _ => hnof), runStep_paren]
        have hwalk2 : insM bothClosers false
            ('&' :: '*' :: 'p' :: 'o' :: 'o' :: 'l' :: ')' ::
              subLit (litPat c0 w1) (litRepl c0 w1) rest)
            = '&' :: '*' :: 'p' :: 'o' :: 'o' :: 'l' :: ')' ::
              insM bothClosers false (subLit (litPat c0 w1) (litRepl c0 w1) rest) := by
          have := @insM_walk bothClosers ['&', '*', 'p', 'o', 'o', 'l', ')'] false
            (subLit (litPat c0 w1) (litRepl c0 w1) rest) (by decide)
          simpa using this
        rw [hwalk2]
        have hfire : siteClose bothClosers
            ('(' :: 'p' :: 'o' :: 'o' :: 'l' :: ')' :: rest) = some ')' :=
          siteClose_of_shape _ (by decide)
        rw [insM_fire rfl hfire]
        simp only [List.drop_succ_cons, List.drop_zero]
        rw [ih rest false (by omega)]
      · rw [subLit_neg _ hpre]
        by_cases hfire : b = true ∧ ∃ d, siteClose bothClosers (c :: cs) = some d
        · obtain ⟨hb, d, hsc⟩ := hfire
          obtain ⟨hd, hshape⟩ := siteClose_some hsc
          simp only [List.cons.injEq, List.drop_succ_cons] at hshape
          obtain ⟨rfl, hcs⟩ := hshape
          obtain ⟨t, rfl⟩ : ∃ t, cs = 'p' :: 'o' :: 'o' :: 'l' :: d :: t :=
            ⟨cs.drop 5, hcs⟩
          simp only [List.length_cons] at hn
          have hdor : d = ')' ∨ d = ',' := by simpa [bothClosers] using hd
          have hwalk : subLit (litPat c0 w1) (litRepl c0 w1)
              ('p' :: 'o' :: 'o' :: 'l' :: d :: t)
              = 'p' :: 'o' :: 'o' :: 'l' :: d ::
                subLit (litPat c0 w1) (litRepl c0 w1) t := by
            have := @subLit_walk c0 w1 (litRepl c0 w1)
              ['p', 'o', 'o', 'l', d] t (by
                intro x hx
                simp only [List.mem_cons] at hx
                rcases hx with rfl | rfl | rfl | rfl | rfl | hx
                · decide
                · decide
                · decide
                · decide
                · rcases hdor with rfl | rfl <;> decide
                · exact absurd hx (by simp))
            simpa using this
          rw [hwalk]
          have hsc2 : siteClose bothClosers
              ('(' :: 'p' :: 'o' :: 'o' :: 'l' :: d ::
                subLit (litPat c0 w1) (litRepl c0 w1) t) = some d :=
            siteClose_of_shape _ hd
          rw [insM_fire hb hsc, insM_fire hb hsc2]
          simp only [List.drop_succ_cons, List.drop_zero]
          simp only [List.cons.injEq, eq_self_iff_true, true_and]
          exact ih t false (by omega)
        · have hnofR : b = true → siteClose bothClosers (c :: cs) = none := by
            intro hb
            cases hsc : siteClose bothClosers (c :: cs) with
            | none => rfl
            | some d => exact absurd ⟨hb, d, hsc⟩ hfire
          have hnofL : b = true → siteClose bothClosers
              (c :: subLit (litPat c0 w1) (litRepl c0 w1) cs) = none := by
            intro hb
            cases hsc : siteClose bothClosers
                (c :: subLit (litPat c0 w1) (litRepl c0 w1) cs) with
            | none => rfl
            | some d =>
              exfalso
              obtain ⟨hd, hshape⟩ := siteClose_some hsc
              simp only [List.cons.injEq, List.drop_succ_cons] at hshape
              obtain ⟨rfl, hX⟩ := hshape
              have hdor : d = ')' ∨ d = ',' := by simpa [bothClosers] using hd
              have htk : (subLit (litPat c0 w1) (litRepl c0 w1) cs).take 5
                  = ['p', 'o', 'o', 'l', d] := by
                rw [hX]
                simp
              have htk2 : cs.take 5 = ['p', 'o', 'o', 'l', d] := by
                rw [← subLit_take_out cs.length cs 5 le_rfl (by
                  rw [htk]
                  intro hmem
                  simp only [List.mem_cons] at hmem
                  rcases hmem with h | h | h | h | h | h
                  · exact absurd h (by decide)
                  · exact absurd h (by decide)
                  · exact absurd h (by decide)
                  · exact absurd h (by decide)
                  · rcases hdor with rfl | rfl <;> exact absurd h (by decide)
                  · exact absurd h (by simp))]
                exact htk
              have hcs5 : cs = 'p' :: 'o' :: 'o' :: 'l' :: d :: cs.drop 5 := by
                conv_lhs => rw [← List.take_append_drop 5 cs]
                rw [htk2]
                rfl
              have : siteClose bothClosers ('(' :: cs) = some d := by
                rw [hcs5]
                exact siteClose_of_shape _ hd
              rw [hnofR hb] at this
              exact Option.noConfusion this
          rw [insM_nofire hnofL, insM_nofire hnofR]
          congr 1
          exact ih cs (runStep b c) (by omega)

/-! ## The master equivalence: the whole chain is the combined machine -/

theorem absorb_execute (t : List Char) (b : Bool) :
    insM bothClosers b (subLit patExecute replExecute t) = insM bothClosers b t := by
  have hp : patExecute = litPat 'e' "xecute".data := by decide
  have hr : replExecute = litRepl 'e' "xecute".data := by decide
  rw [hp, hr]
  exact insM_subLit 'e' "xecute".data (by decide) (by decide) t.length t b le_rfl

theorem absorb_fetch_one (t : List Char) (b : Bool) :
    insM bothClosers b (subLit patFetchOne replFetchOne t) = insM bothClosers b t := by
  have hp : patFetchOne = litPat 'f' "etch_one".data := by decide
  have hr : replFetchOne = litRepl 'f' "etch_one".data := by decide
  rw [hp, hr]
  exact insM_subLit 'f' "etch_one".data (by decide) (by decide) t.length t b le_rfl

theorem absorb_fetch_all (t : List Char) (b : Bool) :
    insM bothClosers b (subLit patFetchAll replFetchAll t) = insM bothClosers b t := by
  have hp : patFetchAll = litPat 'f' "etch_all".data := by decide
  have hr : replFetchAll = litRepl 'f' "etch_all".data := by decide
  rw [hp, hr]
  exact insM_subLit 'f' "etch_all".data (by decide) (by decide) t.length t b le_rfl

theorem absorb_fetch_optional (t : List Char) (b : Bool) :
    insM bothClosers b (subLit patFetchOptional replFetchOptional t)
      = insM bothClosers b t := by
  have hp : patFetchOptional = litPat 'f' "etch_optional".data := by decide
  have hr : replFetchOptional = litRepl 'f' "etch_optional".data := by decide
  rw [hp, hr]
  exact insM_subLit 'f' "etch_optional".data (by decide) (by decide) t.length t b le_rfl

theorem applyGenericSubs_eq_insM (s : List Char) :
    applyGenericSubs s = insM bothClosers false s := by
  show subCall ')' (subCall ',' s) = _
  rw [subCall_eq_insM ',' s, subCall_eq_insM ')' _]
  exact insM_fuse s.length s false le_rfl

theorem applySubs_eq_insM (s : List Char) :
    applySubs s = insM bothClosers false s := by
  show subCall ')'
      (subCall ','
        (subLit patFetchOptional replFetchOptional
          (subLit patFetchAll replFetchAll
            (subLit patFetchOne replFetchOne
              (subLit patExecute replExecute s))))) = _
  rw [show ∀ t, subCall ')' (subCall ',' t) = applyGenericSubs t from fun _ => rfl,
    applyGenericSubs_eq_insM, absorb_fetch_optional, absorb_fetch_all,
    absorb_fetch_one, absorb_execute]

/-! ## Run-model helper lemmas -/

theorem runFiles_append (a b : List FileInput) :
    runFiles (a ++ b) = runFiles a ++ runFiles b := by
  induction a with
  | nil => rfl
  | cons f fs ih => simp [runFiles, ih]

theorem runFiles_length (l : List FileInput) : (runFiles l).length = l.length := by
  induction l with
  | nil => rfl
  | cons f fs ih => simp [runFiles, ih]

/-! ## Claim theorems -/

/-- C1: applying the engine's rule set to the content
`".execute(pool)\n.fetch_one(pool)\n"` produces exactly
`".execute(&*pool)\n.fetch_one(&*pool)\n"`; the file is recorded as changed
(the function returns `True` and writes the new content), and the two involved
rules each match exactly once (rule 2 counted on the content it actually sees,
namely rule 1's output). -/
theorem claim1_end_to_end :
    applySubs ".execute(pool)\n.fetch_one(pool)\n".data
        = ".execute(&*pool)\n.fetch_one(&*pool)\n".data ∧
    fix_pool_patterns ".execute(pool)\n.fetch_one(pool)\n".data true
        WriteBehavior.succeeds
      = { retVal := true, printed := [Msg.fixedFile],
          disk := ".execute(&*pool)\n.fetch_one(&*pool)\n".data,
          writes := [".execute(&*pool)\n.fetch_one(&*pool)\n".data] } ∧
    countLit patExecute ".execute(pool)\n.fetch_one(pool)\n".data = 1 ∧
    countLit patFetchOne
      (subLit patExecute replExecute ".execute(pool)\n.fetch_one(pool)\n".data)
      = 1 := by
  decide

/-- C2: the rewrite is idempotent: applying the engine's full substitution
chain twice to any content yields the same result as applying it once. -/
theorem claim2_idempotent (s : List Char) :
    applySubs (applySubs s) = applySubs s := by
  rw [applySubs_eq_insM, applySubs_eq_insM]
  exact insM_idem s.length s false le_rfl

/-- C3: the rules are applied strictly in ascending order, each operating on
the output of all earlier rules (the chain is literally the left fold of the
ordered rule list); moreover a span already rewritten by rule 1 is not matched
again by the last rule, whereas the same rule applied to the original span
would have matched it. -/
theorem claim3_rule_order :
    (∀ c : List Char, applySubs c = ruleList.foldl (fun acc r => ruleApply r acc) c) ∧
    subCall ')' (subLit patExecute replExecute ".execute(pool)".data)
      = subLit patExecute replExecute ".execute(pool)".data ∧
    subCall ')' ".execute(pool)".data ≠ ".execute(pool)".data :=
  ⟨fun _ => rfl, by decide, by decide⟩

/-- C4: conservation: when the substitution chain leaves the content
byte-for-byte identical, `fix_pool_patterns` performs no write at all
(whatever the writer would have done), reports the file as unchanged
(returns `False`, prints nothing) and leaves the bytes identical. -/
theorem claim4_conservation (content : List Char) (wb : WriteBehavior)
    (h : applySubs content = content) :
    fix_pool_patterns content true wb
      = { retVal := false, printed := [], disk := content, writes := [] } := by
  unfold fix_pool_patterns
  simp [h]

/-- Witness for C4 at the concrete content `"hello"`. -/
theorem claim4_conservation_witness :
    fix_pool_patterns "hello".data true WriteBehavior.succeeds
      = { retVal := false, printed := [], disk := "hello".data, writes := [] } :=
  claim4_conservation "hello".data WriteBehavior.succeeds (by decide)

/-- C5: boundary matching: for every input content the number of occurrences
of `poolmanager` and of `mypool` is unchanged by the engine (no occurrence is
altered, destroyed or created), and in particular `foo(poolmanager)` and
`foo(mypool)` are left exactly as they are. -/
theorem claim5_boundary :
    (∀ s : List Char, countOcc "poolmanager".data (applySubs s)
        = countOcc "poolmanager".data s) ∧
    (∀ s : List Char, countOcc "mypool".data (applySubs s)
        = countOcc "mypool".data s) ∧
    applySubs "foo(poolmanager)".data = "foo(poolmanager)".data ∧
    applySubs "foo(mypool)".data = "foo(mypool)".data := by
  refine ⟨fun s => ?_, fun s => ?_, by decide, by decide⟩
  · rw [applySubs_eq_insM]
    exact insM_countOcc (by decide) (by decide) (by decide) (by decide) (by decide)
      (by decide) s.length s false le_rfl
  · rw [applySubs_eq_insM]
    exact insM_countOcc (by decide) (by decide) (by decide) (by decide) (by decide)
      (by decide) s.length s false le_rfl

/-- C6 counterexample: a write failing after 3 characters does not leave the
file byte-identical to its pre-run content, contradicting the claim. -/
theorem claim6_atomicity_counterexample :
    (fix_pool_patterns ".execute(pool)".data true (WriteBehavior.failsAfter 3)).disk
      ≠ ".execute(pool)".data := by
  decide

/-- C6 amended: when a write fails after `k` characters, the error is caught
(an error message is printed and `False` returned, so the run continues), but
the file is left holding the first `k` characters of the new content — the
truncating `open(path, "w")` has already destroyed the original, which is not
restored. -/
theorem claim6_partial_write (content : List Char) (k : Nat)
    (h : applySubs content ≠ content) :
    fix_pool_patterns content true (WriteBehavior.failsAfter k)
      = { retVal := false, printed := [Msg.errorProcessing],
          disk := (applySubs content).take k,
          writes := [(applySubs content).take k] } := by
  unfold fix_pool_patterns
  simp [h]

/-- Witness for the amended C6 at a concrete content and failure point. -/
theorem claim6_partial_write_witness :
    fix_pool_patterns ".execute(pool)".data true (WriteBehavior.failsAfter 3)
      = { retVal := false, printed := [Msg.errorProcessing],
          disk := (applySubs ".execute(pool)".data).take 3,
          writes := [(applySubs ".execute(pool)".data).take 3] } :=
  claim6_partial_write ".execute(pool)".data 3 (by decide)

/-- C7: per-file error isolation: a read failure is recovered locally (the
function returns normally with `False` and an error message, touching
nothing), its outcome differs from that of an unchanged file, and the run
processes every other file: the loop is exactly one outcome per file, before
and after the failing one. -/
theorem claim7_error_isolation (content : List Char) (wb : WriteBehavior)
    (content2 : List Char) (wb2 : WriteBehavior) (pre post : List FileInput)
    (h : applySubs content2 = content2) :
    fix_pool_patterns content false wb
      = { retVal := false, printed := [Msg.errorProcessing], disk := content,
          writes := [] } ∧
    fix_pool_patterns content false wb ≠ fix_pool_patterns content2 true wb2 ∧
    runFiles (pre ++ (content, false, wb) :: post)
      = runFiles pre ++ fix_pool_patterns content false wb :: runFiles post ∧
    (main true (pre ++ (content, false, wb) :: post)).results.length
      = pre.length + 1 + post.length := by
  have h1 : fix_pool_patterns content false wb
      = { retVal := false, printed := [Msg.errorProcessing], disk := content,
          writes := [] } := by
    unfold fix_pool_patterns
    simp
  have h2 : fix_pool_patterns content2 true wb2
      = { retVal := false, printed := [], disk := content2, writes := [] } := by
    unfold fix_pool_patterns
    simp [h]
  refine ⟨h1, ?_, ?_, ?_⟩
  · rw [h1, h2]
    intro hc
    have := congrArg FileOutcome.printed hc
    simp at this
  · rw [runFiles_append]
    rfl
  · show (main true (pre ++ (content, false, wb) :: post)).results.length = _
    unfold main
    simp [runFiles_length]
    omega

/-- Witness for C7 at concrete inputs. -/
theorem claim7_error_isolation_witness :
    fix_pool_patterns "x".data false WriteBehavior.succeeds
      ≠ fix_pool_patterns "y".data true WriteBehavior.succeeds :=
  (claim7_error_isolation "x".data WriteBehavior.succeeds "y".data
    WriteBehavior.succeeds [] [] (by decide)).2.1

/-- C8: when the root directory does not exist, the run aborts before any file
is read or written: it only prints the not-found message, processes no file,
and every file's bytes are exactly what they were. -/
theorem claim8_root_missing (files : List FileInput) :
    main false files
      = { printed := [Msg.dirNotFound], results := [],
          disks := files.map (·.1) } := by
  rfl

/-- C9: the four method-specific substitutions are subsumed by the two generic
ones: on every input content, applying only the two generic substitutions
yields the same final content as applying all six in the listed order. -/
theorem claim9_subsumption (s : List Char) : applyGenericSubs s = applySubs s := by
  rw [applySubs_eq_insM, applyGenericSubs_eq_insM]

/-- C10: the rewrite only ever inserts text: the output of the full chain is
at least as long as the input, and strictly longer exactly when it differs
from the input. -/
theorem claim10_insert_only (s : List Char) :
    s.length ≤ (applySubs s).length ∧
      (applySubs s ≠ s ↔ s.length < (applySubs s).length) := by
  rw [applySubs_eq_insM]
  refine ⟨insM_mono bothClosers s.length s false le_rfl, ?_, ?_⟩
  · intro hne
    rcases insM_dich bothClosers s.length s false le_rfl with heq | hlt
    · exact absurd heq hne
    · exact hlt
  · intro hlt heq
    rw [heq] at hlt
    exact lt_irrefl _ hlt

end FixSqlx
